import Mathlib

/-!
Shallow embedding of the RealNVP-style normalizing flow in
`src/assignment_3/templates/a3_nf_template.py`, over real arithmetic.
Tensors over a batch are modelled per example as vectors `Fin D → ℝ`;
torch modules become explicit parameter records; the uniform
dequantization noise and the Gaussian prior draw are passed as explicit
arguments (they are the only sources of randomness in the source).
-/

namespace NF

noncomputable section

/-- One `nn.Linear(nIn, nOut)` layer: a weight matrix and a bias vector. -/
structure Linear (nIn nOut : ℕ) where
  weight : Fin nOut → Fin nIn → ℝ
  bias : Fin nOut → ℝ

/-- `nn.Linear` application: `y o = Σ_i W[o,i] * x i + b o`. -/
def Linear.apply {nIn nOut : ℕ} (l : Linear nIn nOut) (x : Fin nIn → ℝ) : Fin nOut → ℝ :=
  fun o => (∑ i, l.weight o i * x i) + l.bias o

/-- `nn.ReLU` applied elementwise. -/
def reluV {n : ℕ} (x : Fin n → ℝ) : Fin n → ℝ :=
  fun i => max (x i) 0

/-- The shared 3-layer network of `Coupling.__init__`:
`Linear(c_in, n_hidden), ReLU, Linear(n_hidden, n_hidden), ReLU, Linear(n_hidden, 2*c_in)`. -/
structure CouplingNN (cIn nHidden : ℕ) where
  lin1 : Linear cIn nHidden
  lin2 : Linear nHidden nHidden
  lin3 : Linear nHidden (cIn + cIn)

/-- Running the sequential network `Linear ∘ ReLU ∘ Linear ∘ ReLU ∘ Linear`. -/
def CouplingNN.apply {cIn nH : ℕ} (f : CouplingNN cIn nH) (x : Fin cIn → ℝ) :
    Fin (cIn + cIn) → ℝ :=
  f.lin3.apply (reluV (f.lin2.apply (reluV (f.lin1.apply x))))

/-- A coupling layer: the network `self.nn` and the registered buffer `self.mask`. -/
structure Coupling (cIn nHidden : ℕ) where
  nn : CouplingNN cIn nHidden
  mask : Fin cIn → ℝ

/-- First half of `self.nn(self.mask * z).split(self.c_in, dim=1)`: the scale head `h`. -/
def Coupling.hs {cIn nH : ℕ} (c : Coupling cIn nH) (z : Fin cIn → ℝ) : Fin cIn → ℝ :=
  fun i => c.nn.apply (fun j => c.mask j * z j) (Fin.castAdd cIn i)

/-- Second half of the split: the translation head `t`. -/
def Coupling.ts {cIn nH : ℕ} (c : Coupling cIn nH) (z : Fin cIn → ℝ) : Fin cIn → ℝ :=
  fun i => c.nn.apply (fun j => c.mask j * z j) (Fin.natAdd cIn i)

/-- `log_scale = torch.tanh(h)`. -/
def Coupling.log_scale {cIn nH : ℕ} (c : Coupling cIn nH) (z : Fin cIn → ℝ) : Fin cIn → ℝ :=
  fun i => Real.tanh (c.hs z i)

/-- `Coupling.forward(z, ldj, reverse)`.
Forward: `z = mask*z + (1-mask)*(z*exp(log_scale) + t)`, `ldj += sum((1-mask)*log_scale)`.
Reverse: `z = mask*z + (1-mask)*(z - t)*exp(-log_scale)`, ldj untouched. -/
def Coupling.forward {cIn nH : ℕ} (c : Coupling cIn nH) (z : Fin cIn → ℝ) (ldj : ℝ)
    (reverse : Bool) : (Fin cIn → ℝ) × ℝ :=
  match reverse with
  | false =>
      (fun i => c.mask i * z i + (1 - c.mask i) * (z i * Real.exp (c.log_scale z i) + c.ts z i),
        ldj + ∑ i, (1 - c.mask i) * c.log_scale z i)
  | true =>
      (fun i => c.mask i * z i + (1 - c.mask i) * (z i - c.ts z i) * Real.exp (-(c.log_scale z i)),
        ldj)

/-- `get_mask()`: the 28×28 checkerboard, flattened row-major to length 784;
position `(i, j)` holds 1 iff `i + j` is even. -/
def get_mask : Fin 784 → ℝ :=
  fun k => if ((k : ℕ) / 28 + (k : ℕ) % 28) % 2 = 0 then 1 else 0

/-- The layer list built in `Flow.__init__`: for each `i < n_flows`, append
`Coupling(mask)` then `Coupling(1 - mask)`; the fresh networks of the 2·n_flows
layers are supplied by `nets`. -/
def Flow.make_layers (nH : ℕ) (nets : ℕ → CouplingNN 784 nH × CouplingNN 784 nH) :
    ℕ → List (Coupling 784 nH)
  | 0 => []
  | n + 1 =>
      Flow.make_layers nH nets n ++
        [⟨(nets n).1, get_mask⟩, ⟨(nets n).2, fun j => 1 - get_mask j⟩]

/-- `Flow.forward(z, logdet, reverse)`: fold the layers in construction order
(forward) or in exactly reversed order with `reverse=True` (inverse). -/
def Flow.forward {cIn nH : ℕ} (layers : List (Coupling cIn nH)) (z : Fin cIn → ℝ)
    (logdet : ℝ) (reverse : Bool) : (Fin cIn → ℝ) × ℝ :=
  match reverse with
  | false => layers.foldl (fun p L => L.forward p.1 p.2 false) (z, logdet)
  | true => layers.reverse.foldl (fun p L => L.forward p.1 p.2 true) (z, logdet)

/-- `log_prior(x)`: elementwise standard-Gaussian log density, summed over dims. -/
def log_prior {D : ℕ} (x : Fin D → ℝ) : ℝ :=
  ∑ i, (-(0.5) * Real.log (2 * Real.pi) - 0.5 * (x i) ^ 2)

/-- The constant `alpha = 1e-5` of `Model.logit_normalize`. -/
def alpha : ℝ := 1e-5

/-- The value fed to the logs in forward `logit_normalize`:
`z = z / 256.` followed by `z = z * (1 - alpha) + alpha * 0.5`. -/
def norm_pre (x : ℝ) : ℝ :=
  (x / 256) * (1 - alpha) + alpha * 0.5

/-- `torch.sigmoid`. -/
def sigmoid (x : ℝ) : ℝ :=
  1 / (1 + Real.exp (-x))

/-- `Model.logit_normalize(z, logdet, reverse)` for a single example of `D` dims
(`np.prod(z.size()[1:]) = D`).
Forward: divide by 256 with `logdet -= log(256)*D`, shrink by `alpha`,
`logdet += Σ -log z - log(1-z)`, then the logit `log z - log(1-z)`.
Reverse: sigmoid, `logdet += Σ log z + log(1-z)`, undo the shrink,
`logdet += log(256)*D`, multiply by 256. -/
def Model.logit_normalize {D : ℕ} (z : Fin D → ℝ) (logdet : ℝ) (reverse : Bool) :
    (Fin D → ℝ) × ℝ :=
  match reverse with
  | false =>
      (fun i => Real.log (norm_pre (z i)) - Real.log (1 - norm_pre (z i)),
        (logdet - Real.log 256 * (D : ℝ)) +
          ∑ i, (-Real.log (norm_pre (z i)) - Real.log (1 - norm_pre (z i))))
  | true =>
      (fun i => ((sigmoid (z i) - alpha * 0.5) / (1 - alpha)) * 256,
        (logdet + ∑ i, (Real.log (sigmoid (z i)) + Real.log (1 - sigmoid (z i)))) +
          Real.log 256 * (D : ℝ))

/-- `Model.dequantize(z)`: `z + torch.rand_like(z)`; the uniform noise draw is
the explicit argument `u`. -/
def Model.dequantize {D : ℕ} (z u : Fin D → ℝ) : Fin D → ℝ :=
  fun i => z i + u i

/-- The flow owned by `Model.__init__`: `Flow(shape)` with the default `n_flows=4`,
hence 8 coupling layers on 784 dims. -/
def Model.layers (nH : ℕ) (nets : ℕ → CouplingNN 784 nH × CouplingNN 784 nH) :
    List (Coupling 784 nH) :=
  Flow.make_layers nH nets 4

/-- `Model.forward(input)`: fresh `ldj = 0`, dequantize, logit-normalize,
run the flow, return `log_px = log_prior(z) + ldj` for the example. -/
def Model.forward (nH : ℕ) (nets : ℕ → CouplingNN 784 nH × CouplingNN 784 nH)
    (x u : Fin 784 → ℝ) : ℝ :=
  let z0 := Model.dequantize x u
  let p1 := Model.logit_normalize z0 0 false
  let p2 := Flow.forward (Model.layers nH nets) p1.1 p1.2 false
  log_prior p2.1 + p2.2

/-- `Model.sample(n_samples)` for one sample: the prior draw `z` is the explicit
argument; `ldj = 0`, invert the flow, invert the logit-normalize, return `x_hat`. -/
def Model.sample (nH : ℕ) (nets : ℕ → CouplingNN 784 nH × CouplingNN 784 nH)
    (z : Fin 784 → ℝ) : Fin 784 → ℝ :=
  let p1 := Flow.forward (Model.layers nH nets) z 0 true
  (Model.logit_normalize p1.1 p1.2 true).1

/-- A mask is binary when every entry is 0 or 1 (the checkerboard and its
complement are). -/
def BinaryMask {D : ℕ} (mask : Fin D → ℝ) : Prop :=
  ∀ i, mask i = 0 ∨ mask i = 1

/-- The zero initialization of the final layer done in `Coupling.__init__`:
`self.nn[-1].weight.data.zero_(); self.nn[-1].bias.data.zero_()`. -/
def zero_final {cIn nH : ℕ} (f : CouplingNN cIn nH) : Prop :=
  (∀ o i, f.lin3.weight o i = 0) ∧ (∀ o, f.lin3.bias o = 0)

/-- The scalar map applied per dimension by forward `logit_normalize`:
`x ↦ log(norm_pre x) - log(1 - norm_pre x)`. -/
def norm_step (x : ℝ) : ℝ :=
  Real.log (norm_pre x) - Real.log (1 - norm_pre x)

/-- The true derivative of `norm_step` (established by `norm_step_hasDerivAt`
below): `((1-alpha)/256) / (norm_pre x * (1 - norm_pre x))`. -/
def norm_step_deriv (x : ℝ) : ℝ :=
  ((1 - alpha) / 256) / (norm_pre x * (1 - norm_pre x))

/-- The change-of-variables log-likelihood of the elementwise map `norm_step`
applied to a dequantized example `v` — the transform the model computes when
every coupling layer is the identity (zero-initialized flow): prior log-density
at the transformed point plus the exact log-Jacobian, which for an elementwise
map is the sum of the log-derivatives of `norm_step`. -/
def exact_log_px (v : Fin 784 → ℝ) : ℝ :=
  log_prior (fun i => norm_step (v i)) + ∑ i, Real.log (norm_step_deriv (v i))

/-- The ldj contribution of the rescale step of forward `logit_normalize`:
`logdet -= np.log(256) * np.prod(z.size()[1:])`. -/
def rescale_ldj_fwd (D : ℕ) : ℝ :=
  -(Real.log 256 * (D : ℝ))

/-- The ldj contribution of the rescale step of reverse `logit_normalize`:
`logdet += np.log(256) * np.prod(z.size()[1:])`. -/
def rescale_ldj_rev (D : ℕ) : ℝ :=
  Real.log 256 * (D : ℝ)

/-- A network with every weight and bias zero (concrete instance for witnesses;
it satisfies `zero_final`). -/
def zero_nn (cIn nH : ℕ) : CouplingNN cIn nH :=
  ⟨⟨fun _ _ => 0, fun _ => 0⟩, ⟨fun _ _ => 0, fun _ => 0⟩, ⟨fun _ _ => 0, fun _ => 0⟩⟩

/-- A family of zero networks for the 8 coupling layers of the model, at the
source's default hidden width 1024. -/
def zero_nets : ℕ → CouplingNN 784 1024 × CouplingNN 784 1024 :=
  fun _ => (zero_nn 784 1024, zero_nn 784 1024)

/-- A concrete one-dimensional coupling layer with the all-zero network and the
all-zeros mask, used as a witness instance. -/
def w_layer0 : Coupling 1 1 :=
  ⟨zero_nn 1 1, fun _ => 0⟩

/-- A concrete one-dimensional input vector for witnesses. -/
def w_z : Fin 1 → ℝ :=
  fun _ => 3

end

/-! ## Helper lemmas -/

/-- The masked coordinates of a coupling transform's output agree with the
input there, so the vector `mask * z` fed to the network is preserved. -/
theorem masked_vec_stable {cIn nH : ℕ} (c : Coupling cIn nH) (h : BinaryMask c.mask)
    (z : Fin cIn → ℝ) (a : ℝ) (r : Bool) :
    (fun j => c.mask j * (c.forward z a r).1 j) = (fun j => c.mask j * z j) := by
  funext j
  rcases h j with h0 | h1
  · cases r <;> simp [Coupling.forward, h0]
  · cases r <;> simp [Coupling.forward, h1]

/-- The scale head is computed from `mask * z` only, hence is stable under
one application of the coupling transform. -/
theorem log_scale_stable {cIn nH : ℕ} (c : Coupling cIn nH) (h : BinaryMask c.mask)
    (z : Fin cIn → ℝ) (a : ℝ) (r : Bool) :
    c.log_scale ((c.forward z a r).1) = c.log_scale z := by
  funext i
  simp only [Coupling.log_scale, Coupling.hs, masked_vec_stable c h z a r]

/-- The translation head is likewise stable. -/
theorem ts_stable {cIn nH : ℕ} (c : Coupling cIn nH) (h : BinaryMask c.mask)
    (z : Fin cIn → ℝ) (a : ℝ) (r : Bool) :
    c.ts ((c.forward z a r).1) = c.ts z := by
  funext i
  simp only [Coupling.ts, masked_vec_stable c h z a r]

/-- The forward branch of the coupling transform, componentwise. -/
theorem coupling_fwd_fst {cIn nH : ℕ} (c : Coupling cIn nH) (z : Fin cIn → ℝ) (ldj : ℝ)
    (i : Fin cIn) :
    (c.forward z ldj false).1 i
      = c.mask i * z i + (1 - c.mask i) * (z i * Real.exp (c.log_scale z i) + c.ts z i) := rfl

/-- The reverse branch of the coupling transform, componentwise. -/
theorem coupling_rev_fst {cIn nH : ℕ} (c : Coupling cIn nH) (z : Fin cIn → ℝ) (ldj : ℝ)
    (i : Fin cIn) :
    (c.forward z ldj true).1 i
      = c.mask i * z i
        + (1 - c.mask i) * (z i - c.ts z i) * Real.exp (-(c.log_scale z i)) := rfl

/-- Forward then inverse of one coupling layer restores `z`. -/
theorem coupling_fwd_then_rev {cIn nH : ℕ} (c : Coupling cIn nH) (h : BinaryMask c.mask)
    (z : Fin cIn → ℝ) (a b : ℝ) :
    (c.forward ((c.forward z a false).1) b true).1 = z := by
  funext i
  rw [coupling_rev_fst, log_scale_stable c h z a false, ts_stable c h z a false,
    coupling_fwd_fst]
  rcases h i with h0 | h1
  · simp only [h0, zero_mul, zero_add, sub_zero, one_mul, Real.exp_neg]
    field_simp
  · simp [h1]

/-- Inverse then forward of one coupling layer restores `z`. -/
theorem coupling_rev_then_fwd {cIn nH : ℕ} (c : Coupling cIn nH) (h : BinaryMask c.mask)
    (z : Fin cIn → ℝ) (a b : ℝ) :
    (c.forward ((c.forward z a true).1) b false).1 = z := by
  funext i
  rw [coupling_fwd_fst, log_scale_stable c h z a true, ts_stable c h z a true,
    coupling_rev_fst]
  rcases h i with h0 | h1
  · simp only [h0, zero_mul, zero_add, sub_zero, one_mul, Real.exp_neg]
    field_simp
  · simp [h1]

/-- A reverse fold of coupling layers never touches the ldj component. -/
theorem foldl_rev_ldj {cIn nH : ℕ} (l : List (Coupling cIn nH)) (p : (Fin cIn → ℝ) × ℝ) :
    (l.foldl (fun q L => L.forward q.1 q.2 true) p).2 = p.2 := by
  induction l generalizing p with
  | nil => rfl
  | cons L l ih => rw [List.foldl_cons]; exact ih _

/-- Folding the layers forward and then folding the reversed list with
`reverse=true` restores the input vector, whatever the two initial ldj values. -/
theorem flow_roundtrip_aux {cIn nH : ℕ} (l : List (Coupling cIn nH))
    (hl : ∀ L ∈ l, BinaryMask L.mask) (z : Fin cIn → ℝ) (a b : ℝ) :
    ((l.reverse).foldl (fun q L => L.forward q.1 q.2 true)
      ((l.foldl (fun q L => L.forward q.1 q.2 false) (z, a)).1, b)).1 = z := by
  induction l using List.reverseRecOn generalizing z a b with
  | nil => rfl
  | append_singleton l L ih =>
      have hL : BinaryMask L.mask := hl L (by simp)
      have hl2 : ∀ M ∈ l, BinaryMask M.mask := fun M hM => hl M (by simp [hM])
      simp only [List.foldl_append, List.reverse_append, List.reverse_cons,
        List.reverse_nil, List.nil_append, List.singleton_append, List.foldl_cons,
        List.foldl_nil]
      have hstep : L.forward
          ((L.forward (l.foldl (fun q M => M.forward q.1 q.2 false) (z, a)).1
            (l.foldl (fun q M => M.forward q.1 q.2 false) (z, a)).2 false).1) b true
          = ((l.foldl (fun q M => M.forward q.1 q.2 false) (z, a)).1, b) := by
        refine Prod.ext ?_ rfl
        exact coupling_fwd_then_rev L hL _ _ b
      rw [hstep]
      exact ih hl2 z a b

/-- The checkerboard mask is binary. -/
theorem get_mask_binary : ∀ k, get_mask k = 0 ∨ get_mask k = 1 := by
  intro k
  unfold get_mask
  split
  · right; rfl
  · left; rfl

/-- The complement of the checkerboard mask is binary. -/
theorem get_mask_compl_binary : ∀ k, (1 : ℝ) - get_mask k = 0 ∨ (1 : ℝ) - get_mask k = 1 := by
  intro k
  rcases get_mask_binary k with h | h <;> rw [h] <;> norm_num

/-- Every layer built by `Flow.__init__` carries a binary mask. -/
theorem make_layers_binary (nH : ℕ) (nets : ℕ → CouplingNN 784 nH × CouplingNN 784 nH) :
    ∀ n, ∀ L ∈ Flow.make_layers nH nets n, BinaryMask L.mask := by
  intro n
  induction n with
  | zero => intro L hL; simp [Flow.make_layers] at hL
  | succ n ih =>
      intro L hL
      simp only [Flow.make_layers, List.mem_append, List.mem_cons,
        List.not_mem_nil, or_false] at hL
      rcases hL with h | h | h
      · exact ih L h
      · subst h; exact get_mask_binary
      · subst h; exact get_mask_compl_binary

/-- If every supplied network has a zero final layer, so does every layer
built by `Flow.__init__`. -/
theorem make_layers_zero_final {nH : ℕ} (nets : ℕ → CouplingNN 784 nH × CouplingNN 784 nH)
    (hn : ∀ k, zero_final (nets k).1 ∧ zero_final (nets k).2) :
    ∀ n, ∀ L ∈ Flow.make_layers nH nets n, zero_final L.nn := by
  intro n
  induction n with
  | zero => intro L hL; simp [Flow.make_layers] at hL
  | succ n ih =>
      intro L hL
      simp only [Flow.make_layers, List.mem_append, List.mem_cons,
        List.not_mem_nil, or_false] at hL
      rcases hL with h | h | h
      · exact ih L h
      · subst h; exact (hn n).1
      · subst h; exact (hn n).2

/-- The all-zero network has a zero final layer. -/
theorem zero_nn_zero_final (cIn nH : ℕ) : zero_final (zero_nn cIn nH) := by
  constructor <;> intros <;> rfl

/-- A network with zero final weights and bias outputs zero everywhere. -/
theorem nn_zero_final_apply {cIn nH : ℕ} (f : CouplingNN cIn nH) (hf : zero_final f)
    (x : Fin cIn → ℝ) (o : Fin (cIn + cIn)) : f.apply x o = 0 := by
  simp [CouplingNN.apply, Linear.apply, hf.1, hf.2]

/-- A coupling layer with zero final weights and bias is the identity on `z`
and leaves the ldj untouched, in both directions. -/
theorem coupling_zero_final_id {cIn nH : ℕ} (c : Coupling cIn nH) (hf : zero_final c.nn)
    (z : Fin cIn → ℝ) (a : ℝ) (r : Bool) : c.forward z a r = (z, a) := by
  have hls : ∀ i, c.log_scale z i = 0 := by
    intro i
    simp [Coupling.log_scale, Coupling.hs, nn_zero_final_apply c.nn hf]
  have hts : ∀ i, c.ts z i = 0 := by
    intro i
    simp [Coupling.ts, nn_zero_final_apply c.nn hf]
  cases r
  · refine Prod.ext ?_ ?_
    · funext i
      rw [coupling_fwd_fst, hls i, hts i]
      simp only [Real.exp_zero, mul_one, add_zero]
      ring
    · show a + _ = a
      have : ∀ i ∈ Finset.univ (α := Fin cIn), (1 - c.mask i) * c.log_scale z i = 0 := by
        intro i _; rw [hls i]; ring
      rw [Finset.sum_congr rfl this]
      simp
  · refine Prod.ext ?_ ?_
    · funext i
      rw [coupling_rev_fst, hls i, hts i]
      simp only [neg_zero, Real.exp_zero, mul_one, sub_zero]
      ring
    · rfl

/-- Folding layers that all have a zero final layer is the identity on the
pair `(z, ldj)`, in either direction. -/
theorem foldl_zero_final {cIn nH : ℕ} (r : Bool) (l : List (Coupling cIn nH))
    (hl : ∀ L ∈ l, zero_final L.nn) (p : (Fin cIn → ℝ) × ℝ) :
    l.foldl (fun q L => L.forward q.1 q.2 r) p = p := by
  induction l generalizing p with
  | nil => rfl
  | cons L l ih =>
      simp only [List.foldl_cons]
      rw [coupling_zero_final_id L (hl L (by simp)) p.1 p.2 r, Prod.mk.eta]
      exact ih (fun M hM => hl M (by simp [hM])) p

/-- The sigmoid is strictly positive. -/
theorem sigmoid_pos (x : ℝ) : 0 < sigmoid x := by
  unfold sigmoid
  positivity

/-- The sigmoid is strictly below one. -/
theorem sigmoid_lt_one (x : ℝ) : sigmoid x < 1 := by
  unfold sigmoid
  rw [div_lt_one (by positivity)]
  linarith [Real.exp_pos (-x)]

/-- A crude but sufficient lower bound on `exp 20`. -/
theorem exp_twenty_big : (1048576 : ℝ) < Real.exp 20 := by
  have h1 : (2 : ℝ) < Real.exp 1 := lt_trans (by norm_num) Real.exp_one_gt_d9
  have h2 : (2 : ℝ) ^ 20 < Real.exp 1 ^ 20 := pow_lt_pow_left₀ h1 (by norm_num) (by norm_num)
  have h3 : Real.exp 1 ^ 20 = Real.exp 20 := by
    rw [← Real.exp_nat_mul]
    norm_num
  calc (1048576 : ℝ) = 2 ^ 20 := by norm_num
    _ < Real.exp 1 ^ 20 := h2
    _ = Real.exp 20 := h3

/-- For pixel values in `[0, 255]` plus noise in `[0, 1)`, the shrunk value
fed to the logs of forward `logit_normalize` lies strictly in `(0, 1)`. -/
theorem norm_pre_bounds (y : ℝ) (h0 : 0 ≤ y) (h1 : y < 256) :
    0 < norm_pre y ∧ norm_pre y < 1 := by
  unfold norm_pre alpha
  constructor <;> nlinarith

/-- `norm_pre` is affine with slope `(1 - alpha) / 256`. -/
theorem norm_pre_hasDerivAt (x : ℝ) : HasDerivAt norm_pre ((1 - alpha) / 256) x := by
  have h : HasDerivAt (fun y : ℝ => (y / 256) * (1 - alpha) + alpha * 0.5)
      ((1 / 256) * (1 - alpha)) x :=
    (((hasDerivAt_id x).div_const 256).mul_const (1 - alpha)).add_const (alpha * 0.5)
  have h2 : ((1 : ℝ) / 256) * (1 - alpha) = (1 - alpha) / 256 := by ring
  rw [h2] at h
  exact h

/-- `norm_step_deriv` is the true derivative of the scalar normalization map
wherever the shrunk value is strictly inside `(0, 1)`. -/
theorem norm_step_hasDerivAt (x : ℝ) (h0 : 0 < norm_pre x) (h1 : norm_pre x < 1) :
    HasDerivAt norm_step (norm_step_deriv x) x := by
  have hz : norm_pre x ≠ 0 := ne_of_gt h0
  have hz1 : (1 : ℝ) - norm_pre x ≠ 0 := ne_of_gt (by linarith)
  have hp := norm_pre_hasDerivAt x
  have hlog1 : HasDerivAt (fun y => Real.log (norm_pre y))
      (((1 - alpha) / 256) / norm_pre x) x := hp.log hz
  have hq : HasDerivAt (fun y : ℝ => 1 - norm_pre y) (-((1 - alpha) / 256)) x := by
    have := (hasDerivAt_const x (1 : ℝ)).sub hp
    simpa using this
  have hlog2 : HasDerivAt (fun y => Real.log (1 - norm_pre y))
      ((-((1 - alpha) / 256)) / (1 - norm_pre x)) x := hq.log hz1
  have h := hlog1.sub hlog2
  have hv : (((1 - alpha) / 256) / norm_pre x) - ((-((1 - alpha) / 256)) / (1 - norm_pre x))
      = norm_step_deriv x := by
    unfold norm_step_deriv
    field_simp
    ring
  rw [hv] at h
  exact h

/-- The log of the true per-dimension Jacobian of the normalization map,
split into the terms the source accumulates plus the omitted `log (1 - alpha)`. -/
theorem log_norm_step_deriv (x : ℝ) (h0 : 0 < norm_pre x) (h1 : norm_pre x < 1) :
    Real.log (norm_step_deriv x)
      = Real.log (1 - alpha) - Real.log 256
        - Real.log (norm_pre x) - Real.log (1 - norm_pre x) := by
  have ha : (0 : ℝ) < 1 - alpha := by norm_num [alpha]
  have hz : norm_pre x ≠ 0 := ne_of_gt h0
  have hz1 : (1 : ℝ) - norm_pre x ≠ 0 := ne_of_gt (by linarith)
  unfold norm_step_deriv
  rw [Real.log_div (ne_of_gt (by positivity)) (mul_ne_zero hz hz1),
    Real.log_div (ne_of_gt ha) (by norm_num), Real.log_mul hz hz1]
  ring

/-- Forward `logit_normalize`, first component. -/
theorem logit_norm_fwd_fst {D : ℕ} (z : Fin D → ℝ) (l : ℝ) :
    (Model.logit_normalize z l false).1
      = fun i => Real.log (norm_pre (z i)) - Real.log (1 - norm_pre (z i)) := rfl

/-- Forward `logit_normalize`, ldj component. -/
theorem logit_norm_fwd_snd {D : ℕ} (z : Fin D → ℝ) (l : ℝ) :
    (Model.logit_normalize z l false).2
      = (l - Real.log 256 * (D : ℝ))
        + ∑ i, (-Real.log (norm_pre (z i)) - Real.log (1 - norm_pre (z i))) := rfl

/-- Reverse `logit_normalize`, first component. -/
theorem logit_norm_rev_fst {D : ℕ} (z : Fin D → ℝ) (l : ℝ) (i : Fin D) :
    (Model.logit_normalize z l true).1 i
      = ((sigmoid (z i) - alpha * 0.5) / (1 - alpha)) * 256 := rfl

/-- Reverse `logit_normalize`, ldj component. -/
theorem logit_norm_rev_snd {D : ℕ} (z : Fin D → ℝ) (l : ℝ) :
    (Model.logit_normalize z l true).2
      = (l + ∑ i, (Real.log (sigmoid (z i)) + Real.log (1 - sigmoid (z i))))
        + Real.log 256 * (D : ℝ) := rfl

/-- With a zero-initialized flow the model computes the change-of-variables
log-likelihood of the elementwise normalization map except for the omitted
shrink Jacobian: the returned value exceeds `exact_log_px` by
`-784 * log (1 - alpha)`. -/
theorem model_forward_zero_flow (nH : ℕ) (nets : ℕ → CouplingNN 784 nH × CouplingNN 784 nH)
    (hz : ∀ L ∈ Model.layers nH nets, zero_final L.nn) (x u : Fin 784 → ℝ)
    (hr : ∀ i, 0 < norm_pre (Model.dequantize x u i) ∧ norm_pre (Model.dequantize x u i) < 1) :
    Model.forward nH nets x u
      = exact_log_px (Model.dequantize x u) - 784 * Real.log (1 - alpha) := by
  have hflow : Flow.forward (Model.layers nH nets)
      (Model.logit_normalize (Model.dequantize x u) 0 false).1
      (Model.logit_normalize (Model.dequantize x u) 0 false).2 false
      = ((Model.logit_normalize (Model.dequantize x u) 0 false).1,
         (Model.logit_normalize (Model.dequantize x u) 0 false).2) :=
    foldl_zero_final false (Model.layers nH nets) hz _
  show log_prior (Flow.forward (Model.layers nH nets)
      (Model.logit_normalize (Model.dequantize x u) 0 false).1
      (Model.logit_normalize (Model.dequantize x u) 0 false).2 false).1
    + (Flow.forward (Model.layers nH nets)
      (Model.logit_normalize (Model.dequantize x u) 0 false).1
      (Model.logit_normalize (Model.dequantize x u) 0 false).2 false).2
    = exact_log_px (Model.dequantize x u) - 784 * Real.log (1 - alpha)
  rw [hflow]
  show log_prior (Model.logit_normalize (Model.dequantize x u) 0 false).1
      + (Model.logit_normalize (Model.dequantize x u) 0 false).2
    = exact_log_px (Model.dequantize x u) - 784 * Real.log (1 - alpha)
  rw [logit_norm_fwd_fst, logit_norm_fwd_snd]
  unfold exact_log_px norm_step
  have hsum : ∑ i, Real.log (norm_step_deriv (Model.dequantize x u i))
      = 784 * (Real.log (1 - alpha) - Real.log 256)
        + ∑ i, (-Real.log (norm_pre (Model.dequantize x u i))
            - Real.log (1 - norm_pre (Model.dequantize x u i))) := by
    have h1 : ∀ i ∈ Finset.univ (α := Fin 784),
        Real.log (norm_step_deriv (Model.dequantize x u i))
          = (Real.log (1 - alpha) - Real.log 256)
            + (-Real.log (norm_pre (Model.dequantize x u i))
              - Real.log (1 - norm_pre (Model.dequantize x u i))) := by
      intro i _
      rw [log_norm_step_deriv _ (hr i).1 (hr i).2]
      ring
    rw [Finset.sum_congr rfl h1, Finset.sum_add_distrib, Finset.sum_const]
    simp only [Finset.card_univ, Fintype.card_fin, nsmul_eq_mul]
    push_cast
    ring
  rw [hsum]
  push_cast
  ring

/-- Bounds on one output coordinate of reverse logit-normalization, in terms
of the sigmoid value `s ∈ (0, 1)`. -/
theorem rev_norm_bounds (s : ℝ) (h0 : 0 < s) (h1 : s < 1) :
    -(256 * (alpha * 0.5) / (1 - alpha)) < ((s - alpha * 0.5) / (1 - alpha)) * 256 ∧
    ((s - alpha * 0.5) / (1 - alpha)) * 256 < 256 * (1 - alpha * 0.5) / (1 - alpha) := by
  have ha : (0 : ℝ) < 1 - alpha := by norm_num [alpha]
  have e1 : -(256 * (alpha * 0.5) / (1 - alpha)) = (-(256 * (alpha * 0.5))) / (1 - alpha) := by
    ring
  have e2 : ((s - alpha * 0.5) / (1 - alpha)) * 256 = ((s - alpha * 0.5) * 256) / (1 - alpha) := by
    ring
  have e3 : 256 * (1 - alpha * 0.5) / (1 - alpha) = (256 * (1 - alpha * 0.5)) / (1 - alpha) := by
    ring
  constructor
  · rw [e1, e2, div_lt_div_iff₀ ha ha]
    nlinarith [mul_pos (mul_pos (show (0 : ℝ) < 256 by norm_num) h0) ha]
  · rw [e2, e3, div_lt_div_iff₀ ha ha]
    nlinarith [mul_pos (mul_pos (show (0 : ℝ) < 256 by norm_num) (sub_pos.mpr h1)) ha]

/-! ## The claims -/

/-- Claim C1: for any coupling layer with a binary mask, any input `z` of the
layer's dimensionality, any initial ldj values and any network parameters,
`Coupling.forward` with `reverse=false` followed by `Coupling.forward` with
`reverse=true` returns the original `z` exactly over real arithmetic, and the
same holds composing in the opposite order. -/
theorem claim_C1_coupling_invertible {cIn nH : ℕ} (c : Coupling cIn nH)
    (h : BinaryMask c.mask) (z : Fin cIn → ℝ) (a b : ℝ) :
    (c.forward ((c.forward z a false).1) b true).1 = z ∧
    (c.forward ((c.forward z a true).1) b false).1 = z :=
  ⟨coupling_fwd_then_rev c h z a b, coupling_rev_then_fwd c h z a b⟩

/-- Witness for C1 at a concrete layer, mask and input. -/
theorem claim_C1_witness :
    BinaryMask w_layer0.mask ∧
    ((w_layer0.forward ((w_layer0.forward w_z 0 false).1) 0 true).1 = w_z ∧
     (w_layer0.forward ((w_layer0.forward w_z 0 true).1) 0 false).1 = w_z) :=
  ⟨fun _ => Or.inl rfl,
    claim_C1_coupling_invertible w_layer0 (fun _ => Or.inl rfl) w_z 0 0⟩

/-- Claim C2: running the constructed flow forward from `ldj = 0` and then in
reverse from `ldj = 0` — the reverse pass folds the coupling layers in exactly
reversed construction order, each with `reverse=true` — returns the original
`z`, for any depth, any hidden width and any network parameters. -/
theorem claim_C2_flow_invertible (nH n_flows : ℕ)
    (nets : ℕ → CouplingNN 784 nH × CouplingNN 784 nH) (z : Fin 784 → ℝ) :
    (Flow.forward (Flow.make_layers nH nets n_flows)
      ((Flow.forward (Flow.make_layers nH nets n_flows) z 0 false).1) 0 true).1 = z :=
  flow_roundtrip_aux (Flow.make_layers nH nets n_flows)
    (make_layers_binary nH nets n_flows) z 0 0

section ClassicalFilter

open Classical

/-- Claim C4: with `reverse=false` and a binary mask, `Coupling.forward`
computes `(h, t)` by the network applied to `mask * z`, sets
`log_scale = tanh h`, and returns
`z' = mask*z + (1-mask)*(z*exp(log_scale) + t)` together with
`ldj' = ldj + Σ_{dims with mask=0} log_scale`. -/
theorem claim_C4_coupling_forward_formula {cIn nH : ℕ} (c : Coupling cIn nH)
    (z : Fin cIn → ℝ) (ldj : ℝ) (h : BinaryMask c.mask) :
    c.forward z ldj false
      = (fun i => c.mask i * z i
          + (1 - c.mask i) * (z i * Real.exp (Real.tanh (c.hs z i)) + c.ts z i),
        ldj + ∑ i ∈ Finset.univ.filter (fun i => c.mask i = 0),
          Real.tanh (c.hs z i)) := by
  refine Prod.ext rfl ?_
  show ldj + ∑ i, (1 - c.mask i) * c.log_scale z i = _
  have hs : ∑ i, (1 - c.mask i) * c.log_scale z i
      = ∑ i ∈ Finset.univ.filter (fun i => c.mask i = 0), Real.tanh (c.hs z i) := by
    rw [Finset.sum_filter]
    refine Finset.sum_congr rfl ?_
    intro i _
    rcases h i with h0 | h1
    · simp [h0, Coupling.log_scale]
    · simp [h1]
  rw [hs]

/-- Witness for C4 at a concrete layer, mask, input and ldj. -/
theorem claim_C4_witness :
    BinaryMask w_layer0.mask ∧
    w_layer0.forward w_z 0 false
      = (fun i => w_layer0.mask i * w_z i
          + (1 - w_layer0.mask i)
            * (w_z i * Real.exp (Real.tanh (w_layer0.hs w_z i)) + w_layer0.ts w_z i),
        0 + ∑ i ∈ Finset.univ.filter (fun i => w_layer0.mask i = 0),
          Real.tanh (w_layer0.hs w_z i)) :=
  ⟨fun _ => Or.inl rfl,
    claim_C4_coupling_forward_formula w_layer0 w_z 0 (fun _ => Or.inl rfl)⟩

end ClassicalFilter

/-- Claim C5: a coupling layer whose final linear layer has weights and bias
exactly zero (the state `Coupling.__init__` establishes) computes the identity
in the forward direction: `transform(z, 0, reverse=false) = (z, 0)` for any
input and any mask. -/
theorem claim_C5_identity_at_init {cIn nH : ℕ} (c : Coupling cIn nH)
    (hf : zero_final c.nn) (z : Fin cIn → ℝ) :
    c.forward z 0 false = (z, 0) :=
  coupling_zero_final_id c hf z 0 false

/-- Witness for C5 at a concrete zero-initialized layer and input. -/
theorem claim_C5_witness :
    zero_final w_layer0.nn ∧ w_layer0.forward w_z 0 false = (w_z, 0) :=
  ⟨zero_nn_zero_final 1 1,
    claim_C5_identity_at_init w_layer0 (zero_nn_zero_final 1 1) w_z⟩

/-- Claim C6: `Coupling.forward` with `reverse=true` returns the ldj argument
unchanged, and consequently `Flow.forward` with `reverse=true` also leaves the
ldj unchanged. -/
theorem claim_C6_reverse_ldj_frame :
    (∀ (cIn nH : ℕ) (c : Coupling cIn nH) (z : Fin cIn → ℝ) (ldj : ℝ),
        (c.forward z ldj true).2 = ldj) ∧
    (∀ (cIn nH : ℕ) (layers : List (Coupling cIn nH)) (z : Fin cIn → ℝ) (ldj : ℝ),
        (Flow.forward layers z ldj true).2 = ldj) := by
  constructor
  · intro cIn nH c z ldj
    rfl
  · intro cIn nH layers z ldj
    exact foldl_rev_ldj layers.reverse (z, ldj)

/-- Claim C7: the ldj contribution of the rescale step in forward
logit-normalization is `-log(256)*D` and the corresponding reverse step
contributes `+log(256)*D`; for the same data extent `D` the two contributions
are exact negations of each other. -/
theorem claim_C7_rescale_ldj_symmetry (D : ℕ) (z : Fin D → ℝ) (ldj : ℝ) :
    (Model.logit_normalize z ldj false).2
      = (ldj + rescale_ldj_fwd D)
        + ∑ i, (-Real.log (norm_pre (z i)) - Real.log (1 - norm_pre (z i))) ∧
    (Model.logit_normalize z ldj true).2
      = (ldj + ∑ i, (Real.log (sigmoid (z i)) + Real.log (1 - sigmoid (z i))))
        + rescale_ldj_rev D ∧
    rescale_ldj_fwd D = -(rescale_ldj_rev D) := by
  refine ⟨?_, rfl, ?_⟩
  · rw [logit_norm_fwd_snd]
    unfold rescale_ldj_fwd
    ring
  · unfold rescale_ldj_fwd rescale_ldj_rev
    ring

/-- Claim C8: for raw pixel values in `[0, 255]` and dequantization noise in
`[0, 1)`, the value obtained after the division by 256 and the alpha-shrink
lies strictly inside `(0, 1)`, so both arguments the forward normalization
passes to `log` are strictly positive. -/
theorem claim_C8_log_domain_safe {D : ℕ} (x u : Fin D → ℝ) (i : Fin D)
    (h0 : 0 ≤ x i) (h1 : x i ≤ 255) (h2 : 0 ≤ u i) (h3 : u i < 1) :
    0 < norm_pre (Model.dequantize x u i) ∧ norm_pre (Model.dequantize x u i) < 1 ∧
      0 < 1 - norm_pre (Model.dequantize x u i) := by
  have hb := norm_pre_bounds (Model.dequantize x u i)
    (by show (0 : ℝ) ≤ x i + u i; linarith)
    (by show x i + u i < 256; linarith)
  exact ⟨hb.1, hb.2, by linarith [hb.2]⟩

/-- Witness for C8 at pixel value 0 and noise 0. -/
theorem claim_C8_witness :
    ((0 : ℝ) ≤ 0 ∧ (0 : ℝ) ≤ 255 ∧ (0 : ℝ) < 1) ∧
    (0 < norm_pre (Model.dequantize (fun _ : Fin 1 => 0) (fun _ => 0) 0) ∧
     norm_pre (Model.dequantize (fun _ : Fin 1 => 0) (fun _ => 0) 0) < 1 ∧
     0 < 1 - norm_pre (Model.dequantize (fun _ : Fin 1 => 0) (fun _ => 0) 0)) :=
  ⟨by norm_num,
    claim_C8_log_domain_safe (fun _ => 0) (fun _ => 0) 0
      (le_refl 0) (by norm_num) (le_refl 0) (by norm_num)⟩

/-- Claim C9: with fixed parameters, `Coupling.forward`, `Flow.forward` and
`Model.logit_normalize` are deterministic — equal inputs give equal outputs.
The only randomness of the model is explicit in this embedding: the uniform
noise argument of `Model.dequantize` and the Gaussian draw argument of
`Model.sample`. -/
theorem claim_C9_deterministic :
    (∀ (cIn nH : ℕ) (c : Coupling cIn nH) (z1 z2 : Fin cIn → ℝ) (l1 l2 : ℝ)
        (r1 r2 : Bool), z1 = z2 → l1 = l2 → r1 = r2 →
        c.forward z1 l1 r1 = c.forward z2 l2 r2) ∧
    (∀ (cIn nH : ℕ) (layers : List (Coupling cIn nH)) (z1 z2 : Fin cIn → ℝ)
        (l1 l2 : ℝ) (r1 r2 : Bool), z1 = z2 → l1 = l2 → r1 = r2 →
        Flow.forward layers z1 l1 r1 = Flow.forward layers z2 l2 r2) ∧
    (∀ (D : ℕ) (z1 z2 : Fin D → ℝ) (l1 l2 : ℝ) (r1 r2 : Bool),
        z1 = z2 → l1 = l2 → r1 = r2 →
        Model.logit_normalize z1 l1 r1 = Model.logit_normalize z2 l2 r2) := by
  refine ⟨?_, ?_, ?_⟩ <;> intros <;> subst_vars <;> rfl

/-- Witness for C9 at concrete equal inputs. -/
theorem claim_C9_witness :
    w_layer0.forward w_z 0 false = w_layer0.forward w_z 0 false :=
  claim_C9_deterministic.1 1 1 w_layer0 w_z w_z 0 0 false false rfl rfl rfl

/-- Claim C3 (amended): `Model.forward` initializes a fresh per-example ldj of
zero, accumulates it additively through dequantization, logit-normalization and
the coupling layers, and returns `log_px = log_prior(z) + ldj` — but this value
is not the exact change-of-variables log-likelihood: the accumulated ldj omits
the Jacobian term `log(1-alpha)` of the alpha-shrink per dimension, so at a
zero-initialized flow (where the coupling layers are exactly the identity with
zero ldj) the returned value equals the exact log-likelihood minus
`784 * log(1-alpha)`, a strictly positive excess. -/
theorem claim_C3_log_likelihood (nH : ℕ)
    (nets : ℕ → CouplingNN 784 nH × CouplingNN 784 nH) (x u : Fin 784 → ℝ) :
    (Model.forward nH nets x u
      = log_prior (Flow.forward (Model.layers nH nets)
          (Model.logit_normalize (Model.dequantize x u) 0 false).1
          (Model.logit_normalize (Model.dequantize x u) 0 false).2 false).1
        + (Flow.forward (Model.layers nH nets)
          (Model.logit_normalize (Model.dequantize x u) 0 false).1
          (Model.logit_normalize (Model.dequantize x u) 0 false).2 false).2) ∧
    ((∀ L ∈ Model.layers nH nets, zero_final L.nn) →
      (∀ i, 0 < norm_pre (Model.dequantize x u i) ∧
          norm_pre (Model.dequantize x u i) < 1) →
      Model.forward nH nets x u
        = exact_log_px (Model.dequantize x u) - 784 * Real.log (1 - alpha)) :=
  ⟨rfl, fun hz hr => model_forward_zero_flow nH nets hz x u hr⟩

/-- Counterexample to C3 as stated: at the zero-initialized model and a
concrete input the returned `log_px` differs from the exact
change-of-variables log-likelihood of the composed transform. -/
theorem claim_C3_counterexample :
    Model.forward 1024 zero_nets (fun _ => 0) (fun _ => 0.5)
      ≠ exact_log_px (Model.dequantize (fun _ => 0) (fun _ => 0.5)) := by
  have hz : ∀ L ∈ Model.layers 1024 zero_nets, zero_final L.nn :=
    make_layers_zero_final zero_nets
      (fun _ => ⟨zero_nn_zero_final 784 1024, zero_nn_zero_final 784 1024⟩) 4
  have hr : ∀ i, 0 < norm_pre (Model.dequantize (fun _ : Fin 784 => (0 : ℝ))
      (fun _ => 0.5) i) ∧
      norm_pre (Model.dequantize (fun _ : Fin 784 => (0 : ℝ)) (fun _ => 0.5) i) < 1 := by
    intro i
    constructor <;> norm_num [Model.dequantize, norm_pre, alpha]
  have heq := model_forward_zero_flow 1024 zero_nets hz (fun _ => 0) (fun _ => 0.5) hr
  rw [heq]
  have hlog : Real.log (1 - alpha) < 0 :=
    Real.log_neg (by norm_num [alpha]) (by norm_num [alpha])
  intro hcontra
  have h0 : (784 : ℝ) * Real.log (1 - alpha) = 0 := sub_eq_self.mp hcontra
  nlinarith [hlog]

/-- Witness for the amended C3 at the zero-initialized model and a concrete
input. -/
theorem claim_C3_witness :
    (∀ L ∈ Model.layers 1024 zero_nets, zero_final L.nn) ∧
    (∀ i, 0 < norm_pre (Model.dequantize (fun _ : Fin 784 => (0 : ℝ)) (fun _ => 0.5) i) ∧
        norm_pre (Model.dequantize (fun _ : Fin 784 => (0 : ℝ)) (fun _ => 0.5) i) < 1) ∧
    Model.forward 1024 zero_nets (fun _ => 0) (fun _ => 0.5)
      = exact_log_px (Model.dequantize (fun _ => 0) (fun _ => 0.5))
        - 784 * Real.log (1 - alpha) := by
  have hz : ∀ L ∈ Model.layers 1024 zero_nets, zero_final L.nn :=
    make_layers_zero_final zero_nets
      (fun _ => ⟨zero_nn_zero_final 784 1024, zero_nn_zero_final 784 1024⟩) 4
  have hr : ∀ i, 0 < norm_pre (Model.dequantize (fun _ : Fin 784 => (0 : ℝ))
      (fun _ => 0.5) i) ∧
      norm_pre (Model.dequantize (fun _ : Fin 784 => (0 : ℝ)) (fun _ => 0.5) i) < 1 := by
    intro i
    constructor <;> norm_num [Model.dequantize, norm_pre, alpha]
  exact ⟨hz, hr, (claim_C3_log_likelihood 1024 zero_nets (fun _ => 0) (fun _ => 0.5)).2 hz hr⟩

/-- Claim C10: reverse logit-normalization maps any real latent elementwise
into the open interval `(-256*alpha*0.5/(1-alpha), 256*(1-alpha*0.5)/(1-alpha))`;
moreover `Model.sample` can produce pixel-space values strictly below 0 for
some latent draws and strictly above 256 for others, so sampled outputs are
not confined to the raw pixel range `[0, 255]`. -/
theorem claim_C10_sample_range :
    (∀ (D : ℕ) (y : Fin D → ℝ) (l : ℝ) (i : Fin D),
        -(256 * (alpha * 0.5) / (1 - alpha)) < (Model.logit_normalize y l true).1 i ∧
        (Model.logit_normalize y l true).1 i < 256 * (1 - alpha * 0.5) / (1 - alpha)) ∧
    (∃ (nH : ℕ) (nets : ℕ → CouplingNN 784 nH × CouplingNN 784 nH)
        (z : Fin 784 → ℝ) (i : Fin 784), Model.sample nH nets z i < 0) ∧
    (∃ (nH : ℕ) (nets : ℕ → CouplingNN 784 nH × CouplingNN 784 nH)
        (z : Fin 784 → ℝ) (i : Fin 784), 256 < Model.sample nH nets z i) := by
  have hzf : ∀ L ∈ Model.layers 1024 zero_nets, zero_final L.nn :=
    make_layers_zero_final zero_nets
      (fun _ => ⟨zero_nn_zero_final 784 1024, zero_nn_zero_final 784 1024⟩) 4
  have ha : (0 : ℝ) < 1 - alpha := by norm_num [alpha]
  refine ⟨?_, ?_, ?_⟩
  · intro D y l i
    rw [logit_norm_rev_fst]
    exact rev_norm_bounds (sigmoid (y i)) (sigmoid_pos (y i)) (sigmoid_lt_one (y i))
  · refine ⟨1024, zero_nets, fun _ => -20, 0, ?_⟩
    have hflow : Flow.forward (Model.layers 1024 zero_nets) (fun _ => (-20 : ℝ)) 0 true
        = ((fun _ => (-20 : ℝ)), 0) :=
      foldl_zero_final true (Model.layers 1024 zero_nets).reverse
        (fun M hM => hzf M (List.mem_reverse.mp hM)) ((fun _ => (-20 : ℝ)), 0)
    show (Model.logit_normalize
        (Flow.forward (Model.layers 1024 zero_nets) (fun _ => (-20 : ℝ)) 0 true).1
        (Flow.forward (Model.layers 1024 zero_nets) (fun _ => (-20 : ℝ)) 0 true).2
        true).1 0 < 0
    rw [hflow]
    show ((sigmoid (-20) - alpha * 0.5) / (1 - alpha)) * 256 < 0
    have hs : sigmoid (-20) < alpha * 0.5 := by
      unfold sigmoid
      rw [neg_neg, div_lt_iff₀ (by positivity)]
      unfold alpha
      nlinarith [exp_twenty_big]
    have hnum : sigmoid (-20) - alpha * 0.5 < 0 := by linarith
    have := div_neg_of_neg_of_pos hnum ha
    nlinarith [this]
  · refine ⟨1024, zero_nets, fun _ => 20, 0, ?_⟩
    have hflow : Flow.forward (Model.layers 1024 zero_nets) (fun _ => (20 : ℝ)) 0 true
        = ((fun _ => (20 : ℝ)), 0) :=
      foldl_zero_final true (Model.layers 1024 zero_nets).reverse
        (fun M hM => hzf M (List.mem_reverse.mp hM)) ((fun _ => (20 : ℝ)), 0)
    show (256 : ℝ) < (Model.logit_normalize
        (Flow.forward (Model.layers 1024 zero_nets) (fun _ => (20 : ℝ)) 0 true).1
        (Flow.forward (Model.layers 1024 zero_nets) (fun _ => (20 : ℝ)) 0 true).2
        true).1 0
    rw [hflow]
    show (256 : ℝ) < ((sigmoid 20 - alpha * 0.5) / (1 - alpha)) * 256
    have he : Real.exp (-20) < 1 / 1048576 := by
      rw [Real.exp_neg]
      have h1 : (Real.exp 20)⁻¹ < ((1048576 : ℝ))⁻¹ := by
        rw [inv_lt_inv₀ (Real.exp_pos 20) (by norm_num)]
        exact exp_twenty_big
      simpa [one_div] using h1
    have hs : 1 - alpha * 0.5 < sigmoid 20 := by
      unfold sigmoid
      rw [lt_div_iff₀ (by positivity)]
      unfold alpha
      nlinarith [Real.exp_pos (-20), he]
    rw [div_mul_eq_mul_div, lt_div_iff₀ ha]
    nlinarith [hs]

end NF
